import Mathlib

/-!
Verification of the matminer composition-descriptor module
(`matminer/descriptors/composition.py`).

The embedding works over `ℚ` (Python floats are modelled as exact
rationals) and over explicit lists.  External collaborators are handled
as follows:

* pymatgen `Composition` objects are modelled as a list of `ElemEntry`
  records: the composition's `get_el_amt_dict()` in its stored order,
  each entry carrying the element's symbol, electronegativity,
  amount, candidate oxidation states, and a total table of named
  numeric properties.
* the magpie property provider (`matminer.descriptors.data`, not part
  of the sources) is modelled from the spec, see `getSeries`.
* `math.exp` is kept as an abstract parameter `e : ℚ → ℚ`; every
  theorem about the ionic featurizer is stated for an arbitrary `e`.
* pymatgen's formula parser `Composition(str)` is kept as an abstract
  parameter `parseC : String → α`; `str(Element(sym))` is modelled as
  the identity on the symbol (the claims only exercise valid symbols).
-/

/-- Python `int()` applied to a rational: truncation toward zero
(`int(el_amt_dict[el_sym])`, `int(sum(values[:i]) - 1)`). -/
def pyInt (q : ℚ) : ℤ := q.num.tdiv q.den

/-- Python list indexing `l[i]`: negative indices address from the end,
out-of-range indices raise `IndexError` (modelled as `none`). -/
def pyGet {α : Type} (l : List α) (i : ℤ) : Option α :=
  if 0 ≤ i then l[i.toNat]?
  else if (-i).toNat ≤ l.length then l[l.length - (-i).toNat]? else none

/-- `List.mapM` specialised to `Option`, with explicit equations:
the loop short-circuits at the first failing element, like a Python
loop raising an exception. -/
def optMapM {α β : Type} (f : α → Option β) : List α → Option (List β)
  | [] => some []
  | a :: l =>
    match f a with
    | none => none
    | some b => (optMapM f l).map fun bs => b :: bs

/-- `List.mapM` specialised to `Except`: the loop stops at the first
raised error, like a Python `for` loop with a `raise` inside. -/
def exMapM {α β ε : Type} (f : α → Except ε β) : List α → Except ε (List β)
  | [] => .ok []
  | a :: l =>
    match f a with
    | .error err => .error err
    | .ok b =>
      match exMapM f l with
      | .error err => .error err
      | .ok bs => .ok (b :: bs)

/-- Concatenation of a list of lists (Python's repeated `+=` / `append`
into one flat list). -/
def concatAll {α : Type} (l : List (List α)) : List α := l.foldr (· ++ ·) []

/-- `np.max` over a nonempty Python list (`0` on the empty list, which
the code never reaches). -/
def listMax : List ℚ → ℚ
  | [] => 0
  | a :: l => l.foldl max a

/-- Python `min` over a nonempty list (`0` on the empty list, which the
code never reaches). -/
def listMin : List ℚ → ℚ
  | [] => 0
  | a :: l => l.foldl min a

/-- One element of a composition: the element symbol, its
electronegativity `x`, its amount in the composition, its candidate
oxidation states, and its other named elemental properties. -/
structure ElemEntry where
  sym : String
  x : ℚ
  amt : ℚ
  oxStates : List ℤ
  props : String → ℚ

/-- Placeholder entry used only as an out-of-range default. -/
def dummyEntry : ElemEntry := ⟨"", 0, 0, [], fun _ => 0⟩

/-- The ordering on entries used by every electronegativity sort. -/
def xLe (a b : ElemEntry) : Prop := a.x ≤ b.x

instance : DecidableRel xLe := fun a b => inferInstanceAs (Decidable (a.x ≤ b.x))

instance : IsTotal ElemEntry xLe := ⟨fun a b => le_total a.x b.x⟩

instance : IsTrans ElemEntry xLe := ⟨fun _ _ _ h h' => le_trans h h'⟩

/-- `sorted(el_amt_dict.keys(), key=lambda sym: get_el_sp(sym).X)`:
Python's stable sort by ascending electronegativity, modelled by
Mathlib's (stable) insertion sort. -/
def sortByX (comp : List ElemEntry) : List ElemEntry := List.insertionSort xLe comp

/-- `comp.num_atoms`: the exact total of the amounts. -/
def numAtoms (comp : List ElemEntry) : ℚ := (comp.map (·.amt)).sum

/-- Per-atom expansion of a per-element value: each entry contributes
`int(amount)` copies of its value, in list order. -/
def rawSeries {α : Type} (f : ElemEntry → α) : List ElemEntry → List α
  | [] => []
  | en :: rest => List.replicate (pyInt en.amt).toNat (f en) ++ rawSeries f rest

/-- Modelled from the spec: `magpie_data.get_data(comp, attr)`
(from `matminer.descriptors.data`, which is not among the sources).
Per the spec it returns one value per atom, `int`-truncated amounts,
grouped by element, elements ordered by ascending electronegativity. -/
def getSeries {α : Type} (comp : List ElemEntry) (f : ElemEntry → α) : List α :=
  rawSeries f (sortByX comp)

/-- `get_pymatgen_descriptor(composition, property_name)` for a
`Composition` input: symbols sorted by ascending electronegativity,
then one `property_value` per atom (`int`-truncated amount) per
element.  The per-element value (`None`, or `float(p)`, or the
`ionic_radii` branch) is abstracted as `propOf`. -/
def getPymatgenDescriptor (comp : List ElemEntry) (propOf : ElemEntry → Option ℚ) :
    List (Option ℚ) :=
  getSeries comp propOf

/-- `itertools.product(*ox_states)`: the Cartesian product of a list of
lists, first coordinate varying slowest, as a list of choices. -/
def listProd : List (List ℤ) → List (List ℤ)
  | [] => [[]]
  | l :: ls => l.flatMap fun a => (listProd ls).map fun c => a :: c

/-- `itertools.combinations(range(n), 2)`: all index pairs `(i, j)`
with `i < j < n`, in iteration order. -/
def pairList (n : ℕ) : List (ℕ × ℕ) :=
  concatAll ((List.range n).map fun i =>
    (List.range n).filterMap fun j => if i < j then some (i, j) else none)

/-- `StoichiometricAttribute.featurize`: one generalized-mean entry per
configured exponent.  The real-valued root `x ** (1.0 / p)` is kept
abstract as `rt x p`. -/
def stoichFeaturize (rt : ℚ → ℤ → ℚ) (pList : List ℤ) (comp : List ElemEntry) :
    Except String (List ℚ) :=
  let n := numAtoms comp
  exMapM (fun p =>
    if p < 0 then .error "p-norm not defined for p < 0"
    else if p = 0 then .ok ((comp.length : ℚ))
    else .ok (rt ((comp.map fun en => (en.amt / n) ^ p.toNat).sum) p)) pList

/-- `StoichiometricAttribute.generate_labels`. -/
def stoichLabels (pList : List ℤ) : List String := pList.map fun p => s!"{p}-norm"

/-- `max(set(elem_data), key=elem_data.count)`: the most frequent value.
CPython iterates the set in an implementation-defined hash order; the
model scans the distinct values in first-occurrence order and keeps the
first count maximum. -/
def pyMode (d : List ℚ) : ℚ :=
  d.dedup.foldl (fun best v => if d.count best < d.count v then v else best) (d.headD 0)

/-- The six aggregates `ElementalAttribute.featurize` emits per
property series: min, max, range, mean, mean absolute deviation, mode. -/
def sixStats (d : List ℚ) : List ℚ :=
  let m := d.sum / (d.length : ℚ)
  [listMin d, listMax d, listMax d - listMin d, m,
    (d.map fun v => |v - m|).sum / (d.length : ℚ), pyMode d]

/-- One iteration of `ElementalAttribute.featurize`'s attribute loop:
fetch the magpie series and aggregate it; `min`/`max` of an empty
series raise (modelled as `none`). -/
def sixStatsStep (comp : List ElemEntry) (attr : String) : Option (List ℚ) :=
  let d := getSeries comp fun en => en.props attr
  if d.isEmpty then none else some (sixStats d)

/-- `ElementalAttribute.featurize`: six aggregates per configured
attribute, collected into one flat list. -/
def elementalFeaturize (attrs : List String) (comp : List ElemEntry) : Option (List ℚ) :=
  (optMapM (sixStatsStep comp) attrs).map concatAll

/-- `ElementalAttribute.generate_labels`. -/
def elementalLabels (attrs : List String) : List String :=
  concatAll (attrs.map fun a =>
    ["Min " ++ a, "Max " ++ a, "Range " ++ a, "Mean " ++ a, "AbsDev " ++ a, "Mode " ++ a])

/-- `ValenceOrbitalAttribute.featurize`: per-atom valence-electron
averages and their fractions.  Python raises `ZeroDivisionError` when
`num_atoms` is zero or when `avg_total_valence` is zero; both are
modelled as `none`. -/
def valenceFeaturize (comp : List ElemEntry) : Option (List ℚ) :=
  let n := numAtoms comp
  if n = 0 then none
  else
    let avgT := (getSeries comp fun en => en.props "NValance").sum / n
    let avgS := (getSeries comp fun en => en.props "NsValence").sum / n
    let avgP := (getSeries comp fun en => en.props "NpValence").sum / n
    let avgD := (getSeries comp fun en => en.props "NdValence").sum / n
    let avgF := (getSeries comp fun en => en.props "NfValence").sum / n
    if avgT = 0 then none
    else some [avgS / avgT, avgP / avgT, avgD / avgT, avgF / avgT]

/-- `ValenceOrbitalAttribute.generate_labels`. -/
def valenceLabels : List String :=
  ["s", "p", "d", "f"].map fun o => "Frac " ++ o ++ " Valence Electrons"

/-- The pairwise ionic character `1.0 - np.exp(-0.25 * (XA - XB) ** 2)`,
with `np.exp` abstract as `e`. -/
def ionPair (e : ℚ → ℚ) (xa xb : ℚ) : ℚ := 1 - e (-(1 / 4) * (xa - xb) ^ 2)

/-- `IonicAttribute.featurize`.  For two or more distinct elements it
indexes the per-atom magpie series at the cumulative-amount positions
`int(sum(values[:i]) - 1)` to pick one oxidation-state list and one
electronegativity per element (an `IndexError` is modelled as `none`),
tests charge neutrality over the Cartesian product of the picked
oxidation-state lists, and aggregates the pairwise ionic characters. -/
def ionicFeaturize (e : ℚ → ℚ) (comp : List ElemEntry) : Option (Bool × ℚ × ℚ) :=
  let values := comp.map (·.amt)
  if comp.length < 2 then some (true, 0, 0)
  else
    let allOx := getSeries comp (·.oxStates)
    let allElec := getSeries comp (·.x)
    let idxs := (List.range comp.length).map fun i => pyInt ((values.take (i + 1)).sum - 1)
    match optMapM (fun ind => pyGet allOx ind) idxs,
        optMapM (fun ind => pyGet allElec ind) idxs with
    | some oxSt, some elec =>
      let cpd := (listProd oxSt).any fun ox =>
        decide ((List.zipWith (fun s v => (s : ℚ) * v) ox values).sum = 0)
      let prs := pairList comp.length
      let elFrac := values.map (· / values.sum)
      some (cpd,
        listMax (prs.map fun pr => ionPair e (elec.getD pr.1 0) (elec.getD pr.2 0)),
        (prs.map fun pr =>
          elFrac.getD pr.1 0 * elFrac.getD pr.2 0 *
            ionPair e (elec.getD pr.1 0) (elec.getD pr.2 0)).sum)
    | _, _ => none

/-- `IonicAttribute.generate_labels`. -/
def ionicLabels : List String := ["compound possible", "Max Ionic Char", "Avg Ionic Char"]

/-- The heterogeneous Python return list
`[cpd_possible, max_ionic_char, avg_ionic_char]` flattened to numbers,
so its length can be compared with the labels. -/
def ionicVec (t : Bool × ℚ × ℚ) : List ℚ := [if t.1 then 1 else 0, t.2.1, t.2.2]

/-- Specification-side reading of `avg_ionic_char` (claim wording):
the sum over all unordered pairs of distinct elements of
`fraction_A * fraction_B * (1 - exp(-0.25 * (X_A - X_B)^2))`, with the
fractions and electronegativities read directly off the composition. -/
def specAvgIonicChar (e : ℚ → ℚ) (comp : List ElemEntry) : ℚ :=
  ((pairList comp.length).map fun pr =>
    (comp.getD pr.1 dummyEntry).amt / numAtoms comp *
      ((comp.getD pr.2 dummyEntry).amt / numAtoms comp) *
      ionPair e (comp.getD pr.1 dummyEntry).x (comp.getD pr.2 dummyEntry).x).sum

/-- Specification-side reading of `max_ionic_char` (claim wording):
the maximum of the pairwise ionic characters over all unordered pairs
of distinct elements. -/
def specMaxIonicChar (e : ℚ → ℚ) (comp : List ElemEntry) : ℚ :=
  listMax ((pairList comp.length).map fun pr =>
    ionPair e (comp.getD pr.1 dummyEntry).x (comp.getD pr.2 dummyEntry).x)

/-- Specification-side reading of charge neutrality (claim wording):
some choice of one candidate oxidation state per distinct element makes
`Σ chosen_state_i * amount_i` vanish. -/
def specNeutralPossible (comp : List ElemEntry) : Prop :=
  ∃ choice : List ℤ,
    List.Forall₂ (fun s (en : ElemEntry) => s ∈ en.oxStates) choice comp ∧
    (List.zipWith (fun s (en : ElemEntry) => (s : ℚ) * en.amt) choice comp).sum = 0

/-- Python `str.strip()` of a character list. -/
def strip (l : List Char) : List Char :=
  (((l.dropWhile Char.isWhitespace).reverse.dropWhile Char.isWhitespace)).reverse

/-- Worker for `splitRuns`, collecting the current gap segment in
`acc`; the `inRun : Bool` flag records being inside a matched run. -/
def srGo (p : Char → Bool) : List Char → Bool → List Char → List (List Char)
  | [], _, acc => [acc]
  | c :: cs, inRun, acc =>
    if p c then
      if inRun then srGo p cs true []
      else acc :: srGo p cs true []
    else srGo p cs false (acc ++ [c])

/-- `re.split` on a one-character-class-run pattern (`[a-z]+` with
IGNORECASE, `[+-]+`, `\d+`, `\d`): the gap segments around the maximal
runs of characters matching `p`, with empty segments at the borders. -/
def splitRuns (p : Char → Bool) (l : List Char) : List (List Char) := srGo p l false []

/-- Prefix test written out (`sub` begins the second list). -/
def leadsWith : List Char → List Char → Bool
  | [], _ => true
  | _ :: _, [] => false
  | a :: as, b :: bs => a == b && leadsWith as bs

/-- Python `s.split(sub, 1)` when `sub` occurs in `s`: the text before
the first occurrence and the text after it; `none` when `sub` does not
occur (the code's tuple unpacking then raises). -/
def splitOnce (sub : List Char) : List Char → Option (List Char × List Char)
  | [] => none
  | c :: cs =>
    if leadsWith sub (c :: cs) then some ([], (c :: cs).drop sub.length)
    else (splitOnce sub cs).map fun pr => (c :: pr.1, pr.2)

/-- Digit-string value for `int()`; `none` on a non-digit or on the
empty string (Python raises `ValueError`). -/
def digitsToNat (l : List Char) : Option ℕ :=
  if l.isEmpty then none
  else
    l.foldl (fun acc? c =>
      acc?.bind fun acc =>
        if c.isDigit then some (acc * 10 + (c.toNat - 48)) else none) (some 0)

/-- Python `int(s)` on the oxidation-state strings the parser builds:
optional sign, then digits. -/
def pyIntParse (l : List Char) : Option ℤ :=
  match strip l with
  | '+' :: rest => (digitsToNat rest).map fun n => (n : ℤ)
  | '-' :: rest => (digitsToNat rest).map fun n => -(n : ℤ)
  | s => (digitsToNat s).map fun n => (n : ℤ)

/-- Python `dict` assignment `d[k] = v`: overwrite in place or append. -/
def dictInsert (k : String) (v : ℤ) : List (String × ℤ) → List (String × ℤ)
  | [] => [(k, v)]
  | (k', v') :: rest => if k' = k then (k, v) :: rest else (k', v') :: dictInsert k v rest

/-- The successive `before, after = after.split(oxs, 1)` loop of
`get_composition_oxidation_state`, collecting the `before` fragments. -/
def buildPlain : List (List Char) → List Char → Option (List (List Char))
  | [], _ => some []
  | oxs :: rest, curr =>
    match splitOnce oxs curr with
    | none => none
    | some (before, after) => (buildPlain rest after).map fun l => before :: l

/-- The `for i, g in enumerate(formula_plain)` loop: resolve each
fragment's element symbol (its non-digit-leading part; the empty
symbol makes pymatgen's `Element` raise, modelled as `none`;
`str(Element(sym))` is modelled as the symbol itself) and record the
parsed oxidation state under it. -/
def buildDict : List (List Char) → List (List Char) → List (String × ℤ) →
    Option (List (String × ℤ))
  | [], _, d => some d
  | g :: gs, oxs :: rest, d =>
    let el := (strip g).takeWhile fun c => !c.isDigit
    if el.isEmpty then none
    else
      match pyIntParse oxs with
      | none => none
      | some v => buildDict gs rest (dictInsert (String.mk el) v d)
  | _ :: _, [], _ => none

/-- The body of the `for na in non_alphabets` loop: a stripped nonblank
segment containing `+` or `-` contributes the string
`"{}{}".format(sign[-1], digits[-1].strip())`; other segments nothing. -/
def oxAnnotation (na : List Char) : Option (List Char) :=
  let s := strip na
  if !s.isEmpty && (s.contains '+' || s.contains '-') then
    let digits := splitRuns (fun c => c == '+' || c == '-') s
    let signTmp := splitRuns Char.isDigit s
    let signs := (signTmp.map strip).filter fun v => !v.isEmpty
    some (signs.getLastD [] ++ strip (digits.getLastD []))
  else none

/-- `get_composition_oxidation_state(formula)` up to the final calls of
pymatgen's `Composition`: the plain formula string that gets parsed,
and the oxidation-state dictionary. -/
def gcosCore (formula : String) : Option (String × List (String × ℤ)) :=
  let chars := formula.toList
  let nonAlphabets := splitRuns Char.isAlpha chars
  if nonAlphabets.isEmpty then some (formula, [])
  else
    let oxList := nonAlphabets.filterMap oxAnnotation
    if oxList.isEmpty then some (formula, [])
    else
      match buildPlain oxList chars with
      | none => none
      | some plains =>
        match buildDict plains oxList [] with
        | none => none
        | some d => some (String.mk (concatAll plains), d)

/-- `get_composition_oxidation_state(formula)` itself, with pymatgen's
`Composition` constructor abstract as `parseC`. -/
def getCompositionOxidationState {α : Type} (parseC : String → α) (formula : String) :
    Option (α × List (String × ℤ)) :=
  (gcosCore formula).map fun r => (parseC r.1, r.2)

/-- A sample iron entry (electronegativity 1.83, amount 2). -/
def feEntry : ElemEntry := ⟨"Fe", 183 / 100, 2, [2, 3], fun _ => 0⟩

/-- A sample oxygen entry (electronegativity 3.44, amount 3). -/
def oEntry : ElemEntry := ⟨"O", 86 / 25, 3, [-2], fun _ => 0⟩

/-- `Composition("Fe2O3")` with its elements stored in ascending
electronegativity order. -/
def fe2o3 : List ElemEntry := [feEntry, oEntry]

/-- The same Fe2O3 amounts with the stored element order O before Fe,
i.e. descending electronegativity, and one candidate oxidation state
per element (O: -2, Fe: +3). -/
def badComp : List ElemEntry :=
  [⟨"O", 86 / 25, 3, [-2], fun _ => 0⟩, ⟨"Fe", 183 / 100, 2, [3], fun _ => 0⟩]

/-- A single-element composition whose valence properties are nonzero. -/
def valComp : List ElemEntry :=
  [⟨"H", 11 / 5, 1, [1, -1],
    fun a => if a = "NValance" then 1 else if a = "NsValence" then 1 else 0⟩]

/-- The trivial root function used to instantiate `rt` in witnesses. -/
def rtId : ℚ → ℤ → ℚ := fun q _ => q

/-- A sample entry with a fractional occupancy below one. -/
def en05 : ElemEntry := ⟨"Li", 98 / 100, 1 / 2, [1], fun _ => 0⟩

/-- A sample entry with the fractional amount 2.7. -/
def en27 : ElemEntry := ⟨"Na", 93 / 100, 27 / 10, [1], fun _ => 0⟩

/-! ## Helper lemmas -/

theorem exMapM_ok_length {α β ε : Type} (f : α → Except ε β) :
    ∀ (l : List α) (v : List β), exMapM f l = .ok v → v.length = l.length := by
  intro l
  induction l with
  | nil => intro v h; simp [exMapM] at h; simp [← h]
  | cons a l ih =>
    intro v h
    simp only [exMapM] at h
    cases hfa : f a with
    | error err => rw [hfa] at h; cases h
    | ok b =>
      rw [hfa] at h
      cases hrest : exMapM f l with
      | error err => rw [hrest] at h; cases h
      | ok bs =>
        rw [hrest] at h
        cases h
        simp [ih bs hrest]

theorem exMapM_ok_of_forall {α β ε : Type} (f : α → Except ε β) (g : α → β) :
    ∀ l : List α, (∀ a ∈ l, f a = .ok (g a)) → exMapM f l = .ok (l.map g) := by
  intro l
  induction l with
  | nil => intro _; rfl
  | cons a l ih =>
    intro h
    simp only [exMapM, h a (by simp), ih fun b hb => h b (by simp [hb]), List.map_cons]

theorem exMapM_error_of_mem {α β ε : Type} (f : α → Except ε β) (msg : ε)
    (hf : ∀ a : α, f a = .error msg ∨ ∃ b, f a = .ok b) :
    ∀ l : List α, (∃ a ∈ l, f a = .error msg) → exMapM f l = .error msg := by
  intro l
  induction l with
  | nil => rintro ⟨a, ha, _⟩; cases ha
  | cons a l ih =>
    rintro ⟨b, hb, hberr⟩
    simp only [exMapM]
    rcases List.mem_cons.mp hb with rfl | hbl
    · rw [hberr]
    · rcases hf a with ha | ⟨c, hc⟩
      · rw [ha]
      · rw [hc, ih ⟨b, hbl, hberr⟩]

theorem optMapM_some_length {α β : Type} (f : α → Option β) :
    ∀ (l : List α) (v : List β), optMapM f l = some v → v.length = l.length := by
  intro l
  induction l with
  | nil => intro v h; simp [optMapM] at h; simp [← h]
  | cons a l ih =>
    intro v h
    simp only [optMapM] at h
    cases hfa : f a with
    | none => rw [hfa] at h; cases h
    | some b =>
      rw [hfa] at h
      cases hrest : optMapM f l with
      | none => rw [hrest] at h; cases h
      | some bs =>
        rw [hrest] at h
        simp only [Option.map_some'] at h
        cases h
        simp [ih bs hrest]

theorem optMapM_some_forall {α β : Type} (f : α → Option β) (P : β → Prop)
    (hP : ∀ a b, f a = some b → P b) :
    ∀ (l : List α) (v : List β), optMapM f l = some v → ∀ b ∈ v, P b := by
  intro l
  induction l with
  | nil =>
    intro v h
    simp only [optMapM, Option.some.injEq] at h
    subst h
    intro b hb
    cases hb
  | cons a l ih =>
    intro v h
    simp only [optMapM] at h
    cases hfa : f a with
    | none => rw [hfa] at h; cases h
    | some b =>
      rw [hfa] at h
      cases hrest : optMapM f l with
      | none => rw [hrest] at h; cases h
      | some bs =>
        rw [hrest] at h
        simp only [Option.map_some'] at h
        cases h
        intro c hc
        rcases List.mem_cons.mp hc with rfl | hcl
        · exact hP a c hfa
        · exact ih bs hrest c hcl

theorem optMapM_congr {α β : Type} {f g : α → Option β} :
    ∀ l : List α, (∀ a ∈ l, f a = g a) → optMapM f l = optMapM g l := by
  intro l
  induction l with
  | nil => intro _; rfl
  | cons a l ih => intro h; simp only [optMapM, h a (by simp), ih fun b hb => h b (by simp [hb])]

theorem optMapM_map {α β γ : Type} (f : β → Option γ) (h : α → β) :
    ∀ l : List α, optMapM f (l.map h) = optMapM (fun a => f (h a)) l := by
  intro l
  induction l with
  | nil => rfl
  | cons a l ih => simp only [List.map_cons, optMapM, ih]

theorem concatAll_length_blocks {α : Type} (k : ℕ) :
    ∀ L : List (List α), (∀ b ∈ L, b.length = k) → (concatAll L).length = k * L.length := by
  intro L
  induction L with
  | nil => intro _; simp [concatAll]
  | cons b L ih =>
    intro h
    simp only [concatAll, List.foldr_cons, List.length_append, List.length_cons]
    have hb := h b (by simp)
    have hL := ih fun c hc => h c (by simp [hc])
    simp only [concatAll] at hL
    rw [hb, hL]
    ring

theorem mem_concatAll {α : Type} (c : α) :
    ∀ L : List (List α), c ∈ concatAll L ↔ ∃ l ∈ L, c ∈ l := by
  intro L
  induction L with
  | nil => simp [concatAll]
  | cons b L ih =>
    simp only [concatAll, List.foldr_cons, List.mem_append, List.mem_cons]
    constructor
    · rintro (h | h)
      · exact ⟨b, Or.inl rfl, h⟩
      · rcases (ih.mp h) with ⟨l, hl, hc⟩
        exact ⟨l, Or.inr hl, hc⟩
    · rintro ⟨l, rfl | hl, hc⟩
      · exact Or.inl hc
      · exact Or.inr (ih.mpr ⟨l, hl, hc⟩)

theorem rawSeries_length {α : Type} (f : ElemEntry → α) :
    ∀ l : List ElemEntry,
      (rawSeries f l).length = (l.map fun en => (pyInt en.amt).toNat).sum := by
  intro l
  induction l with
  | nil => rfl
  | cons en rest ih => simp [rawSeries, ih]

theorem pyInt_intCast (m : ℤ) : pyInt (m : ℚ) = m := by
  simp [pyInt, Rat.intCast_num, Rat.intCast_den]

theorem pyInt_natCast (n : ℕ) : pyInt (n : ℚ) = n := by
  have : ((n : ℤ) : ℚ) = (n : ℚ) := by push_cast; rfl
  rw [← this, pyInt_intCast]



theorem mem_listProd :
    ∀ (ls : List (List ℤ)) (c : List ℤ),
      c ∈ listProd ls ↔ List.Forall₂ (fun (a : ℤ) (l : List ℤ) => a ∈ l) c ls := by
  intro ls
  induction ls with
  | nil =>
    intro c
    simp [listProd, List.forall₂_nil_right_iff]
  | cons l ls ih =>
    intro c
    simp only [listProd, List.mem_flatMap, List.mem_map]
    constructor
    · rintro ⟨a, ha, c', hc', rfl⟩
      exact List.Forall₂.cons ha ((ih c').mp hc')
    · intro h
      cases h with
      | cons hab hrest =>
        exact ⟨_, hab, _, (ih _).mpr hrest, rfl⟩

theorem pairList_mem_bound {n : ℕ} {pr : ℕ × ℕ} (h : pr ∈ pairList n) :
    pr.1 < pr.2 ∧ pr.2 < n := by
  rcases (mem_concatAll pr _).mp h with ⟨l, hl, hpr⟩
  rcases List.mem_map.mp hl with ⟨i, _, rfl⟩
  rcases List.mem_filterMap.mp hpr with ⟨j, hj, hij⟩
  by_cases hlt : i < j
  · rw [if_pos hlt] at hij
    cases hij
    exact ⟨hlt, List.mem_range.mp hj⟩
  · rw [if_neg hlt] at hij
    cases hij

theorem getD_map_of_lt {α β : Type} (f : α → β) (d : β) (d' : α) :
    ∀ (l : List α) (i : ℕ), i < l.length → (l.map f).getD i d = f (l.getD i d') := by
  intro l i hi
  rw [List.getD_eq_getElem?_getD, List.getD_eq_getElem?_getD, List.getElem?_map,
    List.getElem?_eq_getElem hi]
  rfl

theorem mem_of_mem_dropWhile {α : Type} (p : α → Bool) (a : α) :
    ∀ l : List α, a ∈ l.dropWhile p → a ∈ l := by
  intro l
  induction l with
  | nil => intro h; cases h
  | cons b l ih =>
    intro h
    rw [List.dropWhile_cons] at h
    by_cases hb : p b = true
    · rw [if_pos hb] at h
      exact List.mem_cons_of_mem b (ih h)
    · rw [if_neg hb] at h
      exact h

theorem mem_of_mem_strip {a : Char} {l : List Char} (h : a ∈ strip l) : a ∈ l := by
  unfold strip at h
  rw [List.mem_reverse] at h
  have h1 := mem_of_mem_dropWhile _ _ _ h
  rw [List.mem_reverse] at h1
  exact mem_of_mem_dropWhile _ _ _ h1

theorem srGo_mem_sub (p : Char → Bool) :
    ∀ (l : List Char) (b : Bool) (acc seg : List Char),
      seg ∈ srGo p l b acc → ∀ c ∈ seg, c ∈ acc ∨ c ∈ l := by
  intro l
  induction l with
  | nil =>
    intro b acc seg h c hc
    simp only [srGo, List.mem_singleton] at h
    subst h
    exact Or.inl hc
  | cons d l ih =>
    intro b acc seg h c hc
    simp only [srGo] at h
    by_cases hd : p d = true
    · rw [if_pos hd] at h
      by_cases hb : b = true
      · rw [if_pos hb] at h
        rcases ih true [] seg h c hc with h' | h'
        · cases h'
        · exact Or.inr (List.mem_cons_of_mem d h')
      · rw [if_neg hb] at h
        rcases List.mem_cons.mp h with rfl | h'
        · exact Or.inl hc
        · rcases ih true [] seg h' c hc with h'' | h''
          · cases h''
          · exact Or.inr (List.mem_cons_of_mem d h'')
    · rw [if_neg hd] at h
      rcases ih false (acc ++ [d]) seg h c hc with h' | h'
      · rcases List.mem_append.mp h' with h'' | h''
        · exact Or.inl h''
        · rcases List.mem_singleton.mp h''
          exact Or.inr (List.mem_cons_self d l)
      · exact Or.inr (List.mem_cons_of_mem d h')

theorem splitRuns_mem_sub {p : Char → Bool} {l seg : List Char}
    (h : seg ∈ splitRuns p l) : ∀ c ∈ seg, c ∈ l := by
  intro c hc
  rcases srGo_mem_sub p l false [] seg h c hc with h' | h'
  · cases h'
  · exact h'

theorem contains_eq_false_of_not_mem {a : Char} {l : List Char} (h : a ∉ l) :
    l.contains a = false := by
  cases hc : l.contains a
  · rfl
  · exact absurd (List.mem_of_elem_eq_true hc) h

theorem optMapM_cons {α β : Type} (f : α → Option β) (a : α) (l : List α) :
    optMapM f (a :: l) =
      match f a with
      | none => none
      | some b => (optMapM f l).map fun bs => b :: bs := rfl

theorem take_amt_sum_nat :
    ∀ l : List ElemEntry, (∀ en ∈ l, ∃ z : ℕ, 1 ≤ z ∧ en.amt = (z : ℚ)) →
      ∀ k : ℕ, 1 ≤ k → k ≤ l.length →
        ∃ s : ℕ, 1 ≤ s ∧ ((l.map (·.amt)).take k).sum = (s : ℚ) := by
  intro l
  induction l with
  | nil =>
    intro _ k hk hkl
    simp only [List.length_nil, Nat.le_zero] at hkl
    omega
  | cons en rest ih =>
    intro h k hk hkl
    obtain ⟨z, hz1, hzeq⟩ := h en (List.mem_cons_self en rest)
    cases k with
    | zero => omega
    | succ k' =>
      cases Nat.eq_zero_or_pos k' with
      | inl h0 =>
        subst h0
        refine ⟨z, hz1, ?_⟩
        simp [hzeq]
      | inr hpos =>
        obtain ⟨s', hs1, hseq⟩ :=
          ih (fun en' h' => h en' (List.mem_cons_of_mem en h')) k' hpos
            (by simp only [List.length_cons] at hkl; omega)
        refine ⟨z + s', by omega, ?_⟩
        simp only [List.map_cons, List.take_succ_cons, List.sum_cons, hzeq, hseq]
        push_cast
        ring

theorem rawSeries_cumIndex {α : Type} (f : ElemEntry → α) :
    ∀ comp : List ElemEntry,
      (∀ en ∈ comp, ∃ z : ℕ, 1 ≤ z ∧ en.amt = (z : ℚ)) →
      optMapM (fun i => pyGet (rawSeries f comp)
          (pyInt (((comp.map (·.amt)).take (i + 1)).sum - 1)))
        (List.range comp.length) = some (comp.map f) := by
  intro comp
  induction comp with
  | nil => intro _; rfl
  | cons en rest ih =>
    intro hamt
    obtain ⟨z, hz1, hzeq⟩ := hamt en (List.mem_cons_self en rest)
    have hrest : ∀ en' ∈ rest, ∃ z : ℕ, 1 ≤ z ∧ en'.amt = (z : ℚ) :=
      fun en' h' => hamt en' (List.mem_cons_of_mem en h')
    have hpyz : pyInt en.amt = (z : ℤ) := by rw [hzeq, pyInt_natCast]
    have hser : rawSeries f (en :: rest) = List.replicate z (f en) ++ rawSeries f rest := by
      simp only [rawSeries, hpyz, Int.toNat_natCast]
    have h0 : pyGet (List.replicate z (f en) ++ rawSeries f rest) ((z : ℤ) - 1) =
        some (f en) := by
      unfold pyGet
      rw [if_pos (by omega : (0 : ℤ) ≤ (z : ℤ) - 1)]
      rw [show ((z : ℤ) - 1).toNat = z - 1 by omega]
      rw [List.getElem?_append_left (by simp only [List.length_replicate]; omega)]
      rw [List.getElem?_replicate, if_pos (by omega)]
    have h1 : ∀ s : ℕ, 1 ≤ s →
        pyGet (List.replicate z (f en) ++ rawSeries f rest) ((z : ℤ) + (s : ℤ) - 1) =
          pyGet (rawSeries f rest) ((s : ℤ) - 1) := by
      intro s hs
      unfold pyGet
      rw [if_pos (by omega : (0 : ℤ) ≤ (z : ℤ) + (s : ℤ) - 1),
        if_pos (by omega : (0 : ℤ) ≤ (s : ℤ) - 1)]
      rw [show ((z : ℤ) + (s : ℤ) - 1).toNat = z + (s - 1) by omega]
      rw [show ((s : ℤ) - 1).toNat = s - 1 by omega]
      rw [List.getElem?_append_right (by simp only [List.length_replicate]; omega)]
      congr 1
      simp only [List.length_replicate]
      omega
    have hg0 : pyGet (rawSeries f (en :: rest))
        (pyInt ((((en :: rest).map (·.amt)).take (0 + 1)).sum - 1)) = some (f en) := by
      have hidx : pyInt ((((en :: rest).map (·.amt)).take (0 + 1)).sum - 1) = (z : ℤ) - 1 := by
        simp only [List.map_cons, List.take_succ_cons, List.take_zero, List.sum_cons,
          List.sum_nil, add_zero, hzeq]
        rw [show ((z : ℚ) - 1) = (((z : ℤ) - 1 : ℤ) : ℚ) by push_cast; ring, pyInt_intCast]
      rw [hidx, hser, h0]
    have hgtail : ∀ i ∈ List.range rest.length,
        pyGet (rawSeries f (en :: rest))
            (pyInt ((((en :: rest).map (·.amt)).take (Nat.succ i + 1)).sum - 1)) =
          pyGet (rawSeries f rest)
            (pyInt (((rest.map (·.amt)).take (i + 1)).sum - 1)) := by
      intro i hi
      have hi' : i < rest.length := List.mem_range.mp hi
      obtain ⟨s, hs1, hSs⟩ := take_amt_sum_nat rest hrest (i + 1) (by omega) (by omega)
      have hidxL : pyInt ((((en :: rest).map (·.amt)).take (Nat.succ i + 1)).sum - 1) =
          (z : ℤ) + (s : ℤ) - 1 := by
        simp only [List.map_cons, List.take_succ_cons, List.sum_cons, hzeq, hSs]
        rw [show ((z : ℚ) + (s : ℚ) - 1) = (((z : ℤ) + (s : ℤ) - 1 : ℤ) : ℚ) by
          push_cast; ring, pyInt_intCast]
      have hidxR : pyInt (((rest.map (·.amt)).take (i + 1)).sum - 1) = (s : ℤ) - 1 := by
        rw [hSs]
        rw [show ((s : ℚ) - 1) = (((s : ℤ) - 1 : ℤ) : ℚ) by push_cast; ring, pyInt_intCast]
      rw [hidxL, hidxR, hser, h1 s hs1]
    have htail : optMapM (fun i => pyGet (rawSeries f (en :: rest))
          (pyInt ((((en :: rest).map (·.amt)).take (i + 1)).sum - 1)))
        ((List.range rest.length).map Nat.succ) = some (rest.map f) := by
      rw [optMapM_map]
      rw [optMapM_congr (List.range rest.length) hgtail]
      exact ih hrest
    rw [show (en :: rest).length = rest.length + 1 from rfl, List.range_succ_eq_map]
    rw [optMapM_cons]
    simp only [List.map_cons] at hg0 htail
    simp only [hg0, htail, Option.map_some', List.map_cons]

theorem ionicFeaturize_eq (e : ℚ → ℚ) (comp : List ElemEntry)
    (h2 : 2 ≤ comp.length) (hsx : sortByX comp = comp)
    (hamt : ∀ en ∈ comp, ∃ z : ℕ, 1 ≤ z ∧ en.amt = (z : ℚ)) :
    ionicFeaturize e comp = some (
      (listProd (comp.map (·.oxStates))).any fun ox =>
        decide ((List.zipWith (fun s v => (s : ℚ) * v) ox (comp.map (·.amt))).sum = 0),
      listMax ((pairList comp.length).map fun pr =>
        ionPair e ((comp.map (·.x)).getD pr.1 0) ((comp.map (·.x)).getD pr.2 0)),
      ((pairList comp.length).map fun pr =>
        ((comp.map (·.amt)).map (· / (comp.map (·.amt)).sum)).getD pr.1 0 *
          ((comp.map (·.amt)).map (· / (comp.map (·.amt)).sum)).getD pr.2 0 *
          ionPair e ((comp.map (·.x)).getD pr.1 0) ((comp.map (·.x)).getD pr.2 0)).sum) := by
  have hox : optMapM (fun ind => pyGet (rawSeries (·.oxStates) comp) ind)
      ((List.range comp.length).map fun i =>
        pyInt (((comp.map (·.amt)).take (i + 1)).sum - 1)) =
      some (comp.map (·.oxStates)) := by
    rw [optMapM_map]
    exact rawSeries_cumIndex _ comp hamt
  have helec : optMapM (fun ind => pyGet (rawSeries (·.x) comp) ind)
      ((List.range comp.length).map fun i =>
        pyInt (((comp.map (·.amt)).take (i + 1)).sum - 1)) =
      some (comp.map (·.x)) := by
    rw [optMapM_map]
    exact rawSeries_cumIndex _ comp hamt
  unfold ionicFeaturize
  rw [if_neg (show ¬comp.length < 2 by omega)]
  simp only [getSeries, hsx]
  rw [hox, helec]

/-! ## Claims C1 and C2 -/

/-- C1 (amended): for every composition with at least two distinct
elements whose entries are stored in strictly ascending
electronegativity order and whose amounts are positive integers,
`IonicAttribute.featurize` succeeds and its `compound_possible`
component is `true` iff some choice of one candidate oxidation state
per distinct element makes `Σ chosen_state_i * amount_i` equal zero. -/
theorem claim_c1_amended (e : ℚ → ℚ) (comp : List ElemEntry)
    (h2 : 2 ≤ comp.length)
    (hsort : comp.Pairwise fun a b => a.x < b.x)
    (hamt : ∀ en ∈ comp, ∃ z : ℕ, 1 ≤ z ∧ en.amt = (z : ℚ)) :
    ∃ b mx av, ionicFeaturize e comp = some (b, mx, av) ∧
      (b = true ↔ specNeutralPossible comp) := by
  have hsx : sortByX comp = comp :=
    List.Sorted.insertionSort_eq (hsort.imp fun h => le_of_lt h)
  rw [ionicFeaturize_eq e comp h2 hsx hamt]
  refine ⟨_, _, _, rfl, ?_⟩
  rw [List.any_eq_true]
  constructor
  · rintro ⟨ox, hox, hp⟩
    simp only [decide_eq_true_eq] at hp
    have hf := (mem_listProd _ _).mp hox
    rw [List.forall₂_map_right_iff] at hf
    rw [List.zipWith_map_right] at hp
    exact ⟨ox, hf, hp⟩
  · rintro ⟨choice, hmem, hsum⟩
    refine ⟨choice, (mem_listProd _ _).mpr (List.forall₂_map_right_iff.mpr hmem), ?_⟩
    simp only [decide_eq_true_eq]
    rw [List.zipWith_map_right]
    exact hsum

/-- C1 counterexample: `badComp` stores O before Fe, the opposite of
the electronegativity order used by the property provider, so the
cumulative-index lookup pairs both amounts with O's oxidation states:
the code reports `compound_possible = False` although choosing O → -2
and Fe → +3 balances the charges.  This refutes the claim as stated
(for every composition). -/
theorem claim_c1_counterexample :
    2 ≤ badComp.length ∧
      ¬(((ionicFeaturize (fun _ => 0) badComp).map fun t => t.1) = some true ↔
        specNeutralPossible badComp) := by
  refine ⟨by decide, fun h => ?_⟩
  have hspec : specNeutralPossible badComp := by
    refine ⟨([-2, 3] : List ℤ), ?_, by with_unfolding_all decide⟩
    exact List.Forall₂.cons (by simp [badComp])
      (List.Forall₂.cons (by simp [badComp]) List.Forall₂.nil)
  exact absurd (h.mpr hspec) (by with_unfolding_all decide)

/-- C1 witness: the amended claim applied to `fe2o3`, whose entries are
stored in ascending electronegativity order with integer amounts. -/
theorem claim_c1_witness :
    ∃ b mx av, ionicFeaturize (fun _ => 0) fe2o3 = some (b, mx, av) ∧
      (b = true ↔ specNeutralPossible fe2o3) := by
  refine claim_c1_amended (fun _ => 0) fe2o3 (by decide) ?_ ?_
  · refine List.Pairwise.cons ?_ (List.Pairwise.cons (fun c hc => absurd hc ?_) List.Pairwise.nil)
    · intro b hb
      rcases List.mem_singleton.mp hb with rfl
      show feEntry.x < oEntry.x
      norm_num [feEntry, oEntry]
    · exact List.not_mem_nil c
  · intro en hen
    rcases List.mem_cons.mp hen with rfl | hen'
    · exact ⟨2, by omega, by norm_num [feEntry]⟩
    · rcases List.mem_singleton.mp hen' with rfl
      exact ⟨3, by omega, by norm_num [oEntry]⟩

/-- C2 (amended): for every composition with at least two distinct
elements whose entries are stored in strictly ascending
electronegativity order and whose amounts are positive integers,
`IonicAttribute.featurize` returns `avg_ionic_char` equal to the sum
over all unordered pairs of `fraction_A * fraction_B *
(1 - exp(-0.25 * (X_A - X_B)^2))` and `max_ionic_char` equal to the
maximum of the pairwise ionic characters. -/
theorem claim_c2_amended (e : ℚ → ℚ) (comp : List ElemEntry)
    (h2 : 2 ≤ comp.length)
    (hsort : comp.Pairwise fun a b => a.x < b.x)
    (hamt : ∀ en ∈ comp, ∃ z : ℕ, 1 ≤ z ∧ en.amt = (z : ℚ)) :
    ∃ b, ionicFeaturize e comp =
      some (b, specMaxIonicChar e comp, specAvgIonicChar e comp) := by
  have hsx : sortByX comp = comp :=
    List.Sorted.insertionSort_eq (hsort.imp fun h => le_of_lt h)
  rw [ionicFeaturize_eq e comp h2 hsx hamt]
  have hx : ∀ pr ∈ pairList comp.length,
      ((comp.map (·.x)).getD pr.1 0 = (comp.getD pr.1 dummyEntry).x ∧
        (comp.map (·.x)).getD pr.2 0 = (comp.getD pr.2 dummyEntry).x) := by
    intro pr hpr
    obtain ⟨h12, h2n⟩ := pairList_mem_bound hpr
    exact ⟨getD_map_of_lt _ _ dummyEntry comp pr.1 (by omega),
      getD_map_of_lt _ _ dummyEntry comp pr.2 h2n⟩
  have hmax : listMax ((pairList comp.length).map fun pr =>
      ionPair e ((comp.map (·.x)).getD pr.1 0) ((comp.map (·.x)).getD pr.2 0)) =
      specMaxIonicChar e comp := by
    unfold specMaxIonicChar
    congr 1
    apply List.map_congr_left
    intro pr hpr
    rw [(hx pr hpr).1, (hx pr hpr).2]
  have havg : ((pairList comp.length).map fun pr =>
      ((comp.map (·.amt)).map (· / (comp.map (·.amt)).sum)).getD pr.1 0 *
        ((comp.map (·.amt)).map (· / (comp.map (·.amt)).sum)).getD pr.2 0 *
        ionPair e ((comp.map (·.x)).getD pr.1 0) ((comp.map (·.x)).getD pr.2 0)).sum =
      specAvgIonicChar e comp := by
    unfold specAvgIonicChar
    congr 1
    apply List.map_congr_left
    intro pr hpr
    obtain ⟨h12, h2n⟩ := pairList_mem_bound hpr
    rw [(hx pr hpr).1, (hx pr hpr).2, List.map_map]
    rw [getD_map_of_lt _ _ dummyEntry comp pr.1 (by omega),
      getD_map_of_lt _ _ dummyEntry comp pr.2 h2n]
    simp only [Function.comp_apply, numAtoms]
  rw [hmax, havg]
  exact ⟨_, rfl⟩

/-- C2 counterexample: on `badComp` (elements stored O before Fe) the
cumulative-index lookup reads O's electronegativity for both elements,
so every pairwise difference vanishes: the returned `avg_ionic_char`
differs from the specified pair sum.  This refutes the claim as stated
(for every composition). -/
theorem claim_c2_counterexample :
    2 ≤ badComp.length ∧
      ((ionicFeaturize (fun q => q) badComp).map fun t => t.2.2) ≠
        some (specAvgIonicChar (fun q => q) badComp) := by
  constructor
  · decide
  · with_unfolding_all decide

/-- C2 witness: the amended claim applied to `fe2o3`. -/
theorem claim_c2_witness :
    ∃ b, ionicFeaturize (fun _ => 0) fe2o3 =
      some (b, specMaxIonicChar (fun _ => 0) fe2o3,
        specAvgIonicChar (fun _ => 0) fe2o3) := by
  refine claim_c2_amended (fun _ => 0) fe2o3 (by decide) ?_ ?_
  · refine List.Pairwise.cons ?_ (List.Pairwise.cons (fun c hc => absurd hc ?_) List.Pairwise.nil)
    · intro b hb
      rcases List.mem_singleton.mp hb with rfl
      show feEntry.x < oEntry.x
      norm_num [feEntry, oEntry]
    · exact List.not_mem_nil c
  · intro en hen
    rcases List.mem_cons.mp hen with rfl | hen'
    · exact ⟨2, by omega, by norm_num [feEntry]⟩
    · rcases List.mem_singleton.mp hen' with rfl
      exact ⟨3, by omega, by norm_num [oEntry]⟩

/-! ## Claim C3 -/

theorem oxAnnotation_eq_none {na : List Char} (h1 : '+' ∉ na) (h2 : '-' ∉ na) :
    oxAnnotation na = none := by
  have m1 : '+' ∉ strip na := fun hc => h1 (mem_of_mem_strip hc)
  have m2 : '-' ∉ strip na := fun hc => h2 (mem_of_mem_strip hc)
  unfold oxAnnotation
  simp only [Bool.and_eq_true, Bool.or_eq_true, ite_eq_right_iff]
  intro hcond
  rcases hcond with ⟨_, hc | hc⟩
  · exact absurd (List.mem_of_elem_eq_true hc) m1
  · exact absurd (List.mem_of_elem_eq_true hc) m2

/-- C3: `get_composition_oxidation_state("Fe2+3O3-2")` yields the plain
composition parsed from `"Fe2O3"` together with the oxidation map
`{"Fe": 3, "O": -2}`; a formula string with no oxidation-state
annotations (no `+` or `-` character) is parsed directly with an empty
oxidation map. -/
theorem claim_c3_roundtrip :
    (∀ (α : Type) (parseC : String → α),
      getCompositionOxidationState parseC "Fe2+3O3-2" =
        some (parseC "Fe2O3", [("Fe", 3), ("O", -2)])) ∧
    (∀ (α : Type) (parseC : String → α) (formula : String),
      '+' ∉ formula.toList → '-' ∉ formula.toList →
      getCompositionOxidationState parseC formula = some (parseC formula, [])) := by
  constructor
  · intro α parseC
    have hcore : gcosCore "Fe2+3O3-2" = some ("Fe2O3", [("Fe", 3), ("O", -2)]) := by
      decide
    rw [getCompositionOxidationState, hcore]
    rfl
  · intro α parseC formula hplus hminus
    have hcore : gcosCore formula = some (formula, []) := by
      simp only [gcosCore]
      by_cases hemp : (splitRuns Char.isAlpha formula.toList).isEmpty
      · rw [if_pos hemp]
      · rw [if_neg hemp]
        have hox : (splitRuns Char.isAlpha formula.toList).filterMap oxAnnotation = [] := by
          rw [List.filterMap_eq_nil_iff]
          intro na hna
          exact oxAnnotation_eq_none
            (fun hc => hplus (splitRuns_mem_sub hna '+' hc))
            (fun hc => hminus (splitRuns_mem_sub hna '-' hc))
        rw [hox]
        rfl
    rw [getCompositionOxidationState, hcore]
    rfl

/-- C3 witness: the annotation-free branch applied to `"NaCl"`, and the
concrete round trip, both at the identity parser. -/
theorem claim_c3_witness :
    getCompositionOxidationState id "Fe2+3O3-2" =
        some (id "Fe2O3", [("Fe", 3), ("O", -2)]) ∧
      getCompositionOxidationState id "NaCl" = some (id "NaCl", []) :=
  ⟨claim_c3_roundtrip.1 String id,
    claim_c3_roundtrip.2 String id "NaCl" (by decide) (by decide)⟩

/-! ## Claims C4 to C10 -/

theorem sixStatsStep_length {comp : List ElemEntry} {a : String} {b : List ℚ}
    (hab : sixStatsStep comp a = some b) : b.length = 6 := by
  simp only [sixStatsStep] at hab
  by_cases hd : (getSeries comp fun en => en.props a).isEmpty
  · rw [if_pos hd] at hab; cases hab
  · rw [if_neg hd] at hab
    cases hab
    rfl

/-- C4: for each of the four featurizers, whenever `featurize` returns
a vector its length equals the length of `generate_labels()`; the
labels, hence the common length, depend only on the configuration and
not on the composition. -/
theorem claim_c4_labels_align :
    (∀ (rt : ℚ → ℤ → ℚ) (pList : List ℤ) (comp : List ElemEntry) (v : List ℚ),
      stoichFeaturize rt pList comp = .ok v → v.length = (stoichLabels pList).length) ∧
    (∀ (attrs : List String) (comp : List ElemEntry) (v : List ℚ),
      elementalFeaturize attrs comp = some v → v.length = (elementalLabels attrs).length) ∧
    (∀ (comp : List ElemEntry) (v : List ℚ),
      valenceFeaturize comp = some v → v.length = valenceLabels.length) ∧
    (∀ (e : ℚ → ℚ) (comp : List ElemEntry) (t : Bool × ℚ × ℚ),
      ionicFeaturize e comp = some t → (ionicVec t).length = ionicLabels.length) := by
  refine ⟨?_, ?_, ?_, ?_⟩
  · intro rt pList comp v h
    unfold stoichFeaturize at h
    rw [exMapM_ok_length _ _ _ h]
    simp [stoichLabels]
  · intro attrs comp v h
    unfold elementalFeaturize at h
    rcases Option.map_eq_some'.mp h with ⟨blocks, hb, rfl⟩
    have hlen := optMapM_some_length _ _ _ hb
    have hblocks : ∀ b ∈ blocks, b.length = 6 :=
      optMapM_some_forall _ (fun b => b.length = 6)
        (fun a b hab => sixStatsStep_length hab) _ _ hb
    rw [concatAll_length_blocks 6 blocks hblocks, hlen]
    unfold elementalLabels
    rw [concatAll_length_blocks 6, List.length_map]
    intro b hb'
    rcases List.mem_map.mp hb' with ⟨a, _, rfl⟩
    rfl
  · intro comp v h
    simp only [valenceFeaturize] at h
    by_cases hn : numAtoms comp = 0
    · rw [if_pos hn] at h; cases h
    · rw [if_neg hn] at h
      by_cases ht : (getSeries comp fun en => en.props "NValance").sum / numAtoms comp = 0
      · rw [if_pos ht] at h; cases h
      · rw [if_neg ht] at h
        cases h
        rfl
  · intro e comp t _
    rfl

/-- C4 witness: label/value alignment observed on concrete runs of the
four featurizers. -/
theorem claim_c4_witness :
    (([2, 13 / 25] : List ℚ)).length = (stoichLabels [0, 2]).length ∧
    (([0, 0, 0, 0, 0, 0] : List ℚ)).length = (elementalLabels ["Number"]).length ∧
    (([1, 0, 0, 0] : List ℚ)).length = valenceLabels.length ∧
    (ionicVec (true, 1, 6 / 25)).length = ionicLabels.length :=
  ⟨claim_c4_labels_align.1 rtId [0, 2] fe2o3 [2, 13 / 25] (by with_unfolding_all rfl),
    claim_c4_labels_align.2.1 ["Number"] fe2o3 [0, 0, 0, 0, 0, 0]
      (by with_unfolding_all rfl),
    claim_c4_labels_align.2.2.1 valComp [1, 0, 0, 0] (by with_unfolding_all rfl),
    claim_c4_labels_align.2.2.2 (fun _ => 0) fe2o3 (true, 1, 6 / 25)
      (by with_unfolding_all rfl)⟩

/-- C5: `get_pymatgen_descriptor` returns one identical entry per atom
of each element (`int`-truncated amounts), the element groups
concatenated in ascending-electronegativity order, so the total length
is the sum of the truncated amounts. -/
theorem claim_c5_descriptor (comp : List ElemEntry) (propOf : ElemEntry → Option ℚ) :
    (getPymatgenDescriptor comp propOf).length =
        (comp.map fun en => (pyInt en.amt).toNat).sum ∧
      ∃ l, l.Perm comp ∧ l.Pairwise xLe ∧
        getPymatgenDescriptor comp propOf = rawSeries propOf l := by
  constructor
  · unfold getPymatgenDescriptor getSeries sortByX
    rw [rawSeries_length]
    exact ((List.perm_insertionSort xLe comp).map fun en => (pyInt en.amt).toNat).sum_eq
  · exact ⟨sortByX comp, List.perm_insertionSort xLe comp,
      List.sorted_insertionSort xLe comp, rfl⟩

/-- C6: a `p_list` containing a negative exponent makes
`StoichiometricAttribute.featurize` raise the domain error
`"p-norm not defined for p < 0"` for every composition; no vector is
produced. -/
theorem claim_c6_negative_norm (rt : ℚ → ℤ → ℚ) (pList : List ℤ) (comp : List ElemEntry)
    (h : ∃ p ∈ pList, p < 0) :
    stoichFeaturize rt pList comp = .error "p-norm not defined for p < 0" := by
  unfold stoichFeaturize
  refine exMapM_error_of_mem _ _ ?_ pList ?_
  · intro p
    by_cases hp : p < 0
    · left; simp [hp]
    · right
      by_cases h0 : p = 0
      · exact ⟨(comp.length : ℚ), by simp [hp, h0]⟩
      · exact ⟨rt ((comp.map fun en => (en.amt / numAtoms comp) ^ p.toNat).sum) p,
          by simp [hp, h0]⟩
  · rcases h with ⟨p, hmem, hneg⟩
    exact ⟨p, hmem, by simp [hneg]⟩

/-- C6 witness: `p_list = [-1]` on Fe2O3 raises the domain error. -/
theorem claim_c6_witness :
    stoichFeaturize rtId [-1] fe2o3 = .error "p-norm not defined for p < 0" :=
  claim_c6_negative_norm rtId [-1] fe2o3 ⟨-1, by decide, by decide⟩

/-- C7: `ValenceOrbitalAttribute.featurize` raises a division error
(returns no vector) exactly when the per-atom average total valence
count is zero, and otherwise returns the four orbital fractions
`avg_s/avg_total, avg_p/avg_total, avg_d/avg_total, avg_f/avg_total`
in that order. -/
theorem claim_c7_valence (comp : List ElemEntry) :
    ((getSeries comp fun en => en.props "NValance").sum / numAtoms comp = 0 →
      valenceFeaturize comp = none) ∧
    ((getSeries comp fun en => en.props "NValance").sum / numAtoms comp ≠ 0 →
      valenceFeaturize comp = some [
        (getSeries comp fun en => en.props "NsValence").sum / numAtoms comp /
          ((getSeries comp fun en => en.props "NValance").sum / numAtoms comp),
        (getSeries comp fun en => en.props "NpValence").sum / numAtoms comp /
          ((getSeries comp fun en => en.props "NValance").sum / numAtoms comp),
        (getSeries comp fun en => en.props "NdValence").sum / numAtoms comp /
          ((getSeries comp fun en => en.props "NValance").sum / numAtoms comp),
        (getSeries comp fun en => en.props "NfValence").sum / numAtoms comp /
          ((getSeries comp fun en => en.props "NValance").sum / numAtoms comp)]) := by
  by_cases hn : numAtoms comp = 0
  · constructor
    · intro _
      simp only [valenceFeaturize]
      rw [if_pos hn]
    · intro hne
      exact absurd (by rw [hn, div_zero]) hne
  · constructor
    · intro h0
      simp only [valenceFeaturize]
      rw [if_neg hn, if_pos h0]
    · intro hne
      simp only [valenceFeaturize]
      rw [if_neg hn, if_neg hne]

/-- C7 witness: a composition with all-zero valence data raises, and a
one-element composition with one valence electron returns the four
fractions. -/
theorem claim_c7_witness :
    valenceFeaturize fe2o3 = none ∧ valenceFeaturize valComp = some [1, 0, 0, 0] := by
  constructor
  · exact (claim_c7_valence fe2o3).1 (by with_unfolding_all decide)
  · have h := (claim_c7_valence valComp).2 (by with_unfolding_all decide)
    rw [h]
    with_unfolding_all decide

/-- C8: an exponent 0 in `p_list` produces the count of distinct
elements at the corresponding output position (given no negative
exponent aborts the call), and in particular
`StoichiometricAttribute(p_list=[0]).featurize(Fe2O3)` returns `[2]`. -/
theorem claim_c8_zero_norm :
    (∀ (rt : ℚ → ℤ → ℚ) (pList : List ℤ) (comp : List ElemEntry),
      (∀ p ∈ pList, 0 ≤ p) → ((comp.map (·.sym)).Nodup) →
      ∃ v, stoichFeaturize rt pList comp = .ok v ∧
        ∀ i, (hi : i < pList.length) → pList.get ⟨i, hi⟩ = 0 →
          v[i]? = some (((comp.map (·.sym)).dedup.length : ℚ))) ∧
    (∀ rt : ℚ → ℤ → ℚ, stoichFeaturize rt [0] fe2o3 = .ok [2]) := by
  constructor
  · intro rt pList comp hpos hnd
    have hdedup : (((comp.map (·.sym)).dedup.length : ℕ) : ℚ) = (comp.length : ℚ) := by
      rw [List.Nodup.dedup hnd, List.length_map]
    refine ⟨pList.map fun p =>
        if p = 0 then (comp.length : ℚ)
        else rt ((comp.map fun en => (en.amt / numAtoms comp) ^ p.toNat).sum) p, ?_, ?_⟩
    · unfold stoichFeaturize
      refine exMapM_ok_of_forall _ _ pList ?_
      intro p hp
      have hnneg : ¬p < 0 := by have := hpos p hp; omega
      by_cases h0 : p = 0
      · simp [hnneg, h0]
      · simp [hnneg, h0]
    · intro i hi h0
      rw [List.getElem?_map, List.getElem?_eq_getElem hi]
      simp only [Option.map_some']
      rw [show pList[i] = pList.get ⟨i, hi⟩ from rfl, h0]
      rw [if_pos rfl, hdedup]
  · intro rt
    with_unfolding_all rfl

/-- C8 witness: the general statement applied to `p_list = [0]` and
Fe2O3. -/
theorem claim_c8_witness :
    ∃ v, stoichFeaturize rtId [0] fe2o3 = .ok v ∧
      ∀ i, (hi : i < ([0] : List ℤ).length) → ([0] : List ℤ).get ⟨i, hi⟩ = 0 →
        v[i]? = some (((fe2o3.map (·.sym)).dedup.length : ℚ)) :=
  claim_c8_zero_norm.1 rtId [0] fe2o3 (by decide) (by decide)

/-- C10: `get_pymatgen_descriptor` emits `int(amount)` entries per
element with `int` truncating toward zero: any amount in `[0, 1)`
contributes no entries, the amount 2.7 contributes exactly 2 entries,
and `int(-0.7)` is 0 rather than -1. -/
theorem claim_c10_int_truncation :
    (∀ q : ℚ, 0 ≤ q → q < 1 → (pyInt q).toNat = 0) ∧
    pyInt (-(7 / 10)) = 0 ∧
    (∀ (en : ElemEntry) (propOf : ElemEntry → Option ℚ),
      0 ≤ en.amt → en.amt < 1 → getPymatgenDescriptor [en] propOf = []) ∧
    (∀ (en : ElemEntry) (propOf : ElemEntry → Option ℚ),
      en.amt = 27 / 10 → (getPymatgenDescriptor [en] propOf).length = 2) := by
  have hz : ∀ q : ℚ, 0 ≤ q → q < 1 → (pyInt q).toNat = 0 := by
    intro q h0 h1
    have hnum : 0 ≤ q.num := Rat.num_nonneg.mpr h0
    have hlt : q.num < q.den := Rat.lt_one_iff_num_lt_denom.mp h1
    unfold pyInt
    rw [Int.tdiv_eq_zero_of_lt hnum hlt]
    rfl
  have hsingle : ∀ (en : ElemEntry) (propOf : ElemEntry → Option ℚ),
      getPymatgenDescriptor [en] propOf =
        List.replicate (pyInt en.amt).toNat (propOf en) := by
    intro en propOf
    unfold getPymatgenDescriptor getSeries sortByX
    simp [List.insertionSort, List.orderedInsert, rawSeries]
  refine ⟨hz, by with_unfolding_all decide, ?_, ?_⟩
  · intro en propOf h0 h1
    rw [hsingle, hz en.amt h0 h1]
    rfl
  · intro en propOf hamt
    have h2 : (pyInt (27 / 10 : ℚ)).toNat = 2 := by with_unfolding_all decide
    rw [hsingle, hamt, h2]
    rfl

/-- C10 witness: a 0.5 occupancy contributes no entries and a 2.7
amount contributes two. -/
theorem claim_c10_witness :
    (pyInt (1 / 2 : ℚ)).toNat = 0 ∧
      getPymatgenDescriptor [en05] (fun _ => none) = [] ∧
      (getPymatgenDescriptor [en27] (fun _ => none)).length = 2 :=
  ⟨claim_c10_int_truncation.1 (1 / 2) (by norm_num) (by norm_num),
    claim_c10_int_truncation.2.2.1 en05 (fun _ => none) (by norm_num [en05])
      (by norm_num [en05]),
    claim_c10_int_truncation.2.2.2 en27 (fun _ => none) (by norm_num [en27])⟩
